import Mathlib

/-!
Verification of the claudebot core (src/basebot/bot.py): a shallow embedding of
the prompt assembler (build_prompt_with_budget, truncate_prompt_to_budget), the
startup configuration validation, the history fetch boundary, and the
per-channel dispatch logic of on_message, together with theorems settling the
specified properties.
-/

namespace Claudebot

/-- The tokenizer oracle (GPT2Tokenizer collaborator): encode turns text into a
token-id sequence, decode turns a token-id sequence back into text.  It is an
external collaborator, so it is kept abstract; theorems that need round-trip or
subadditivity facts about it take them as explicit hypotheses. -/
structure Tokenizer where
  encode : String → List Nat
  decode : List Nat → String

/-- The projection of a discord Message that the prompt assembler reads:
the author's display name and the message content. -/
structure Msg where
  author : String
  content : String
deriving DecidableEq, Repr

/-- bot.py line 30: GPT-2 XL has a 1024 token context window. -/
def GPT2_CONTEXT_WINDOW : Int := 1024

/-- Python slice l[:j] for an arbitrary (possibly negative) Int index j. -/
def pySliceTo (l : List α) (j : Int) : List α :=
  if j < 0 then l.take (l.length - (-j).toNat) else l.take j.toNat

/-- Python slice l[i:] for an arbitrary (possibly negative) Int index i.
Note that l[-0:] is l[0:] (the whole list), matching Python where -0 == 0. -/
def pySliceFrom (l : List α) (i : Int) : List α :=
  if i < 0 then l.drop (l.length - (-i).toNat) else l.drop i.toNat

/-- Python "not content.strip()" (bot.py lines 152, 204): true iff the content
is empty or consists entirely of whitespace characters. -/
def isBlank (s : String) : Bool :=
  s.data.all Char.isWhitespace

/-- bot.py format_message (lines 161-163): format a single message with
display name, as "{author}: {content}". -/
def format_message (m : Msg) : String :=
  m.author ++ ": " ++ m.content

/-- The accumulation loop of build_prompt_with_budget (bot.py lines 202-217):
walk the given message list (called with newest first), skip messages whose
content strips to empty, stop at the first message whose formatted line would
push the running token total over remaining_budget, otherwise prepend the
formatted line to history_lines. -/
def accumulate_history (tk : Tokenizer) (remaining_budget : Int)
    (history_lines : List String) (total_history_tokens : Int) :
    List Msg → List String
  | [] => history_lines
  | msg :: rest =>
    if isBlank msg.content then
      accumulate_history tk remaining_budget history_lines total_history_tokens rest
    else
      let msg_line := format_message msg
      let msg_token_count : Int := ((tk.encode (msg_line ++ "\n")).length : Int)
      if total_history_tokens + msg_token_count > remaining_budget then
        history_lines
      else
        accumulate_history tk remaining_budget (msg_line :: history_lines)
          (total_history_tokens + msg_token_count) rest

/-- Python "\n".join. -/
def joinNL : List String → String
  | [] => ""
  | [l] => l
  | l :: ls => l ++ "\n" ++ joinNL ls

/-- bot.py build_prompt_with_budget (lines 166-231).  tok is the global
tokenizer (None until the model loads); max_completion_tokens is the
MAX_COMPLETION_TOKENS configuration value; messages are oldest first;
pfx is the `prefix` argument (text appended after the history). -/
def build_prompt_with_budget (tok : Option Tokenizer) (max_completion_tokens : Int)
    (messages : List Msg) (pfx : String) : String :=
  match tok with
  | none => pfx
  | some tk =>
    let budget : Int := GPT2_CONTEXT_WINDOW - max_completion_tokens
    let prefix_text := if pfx = "" then "" else pfx
    let prefix_tokens := tk.encode prefix_text
    if ((prefix_tokens.length : Int) ≥ budget) then
      tk.decode (pySliceTo prefix_tokens budget)
    else
      let remaining_budget := budget - (prefix_tokens.length : Int)
      let history_lines := accumulate_history tk remaining_budget [] 0 messages.reverse
      let history_text := joinNL history_lines
      (if history_text = "" then history_text else history_text ++ "\n") ++ prefix_text

/-- bot.py truncate_prompt_to_budget (lines 234-262): direct-completion mode
truncation.  If the prompt fits the budget it is returned unchanged; otherwise
the slice input_tokens[-budget:] is decoded. -/
def truncate_prompt_to_budget (tok : Option Tokenizer) (max_completion_tokens : Int)
    (prompt : String) : String :=
  match tok with
  | none => prompt
  | some tk =>
    let budget : Int := GPT2_CONTEXT_WINDOW - max_completion_tokens
    let input_tokens := tk.encode prompt
    if ((input_tokens.length : Int) ≤ budget) then prompt
    else tk.decode (pySliceFrom input_tokens (-budget))

/-- The outcome of iterating channel.history(limit=...) inside fetch_history:
the transport yields some messages (in the order the iterator produces them,
newest first for discord) and then either finishes normally or raises. -/
structure HistoryFetchResult where
  delivered : List Msg
  errored : Bool
deriving DecidableEq, Repr

/-- bot.py fetch_history (lines 125-139).  The try block appends each yielded
message and then reverses to chronological order; the except clause catches any
exception, logs it, and falls through to return whatever was accumulated —
note that on error the reversal has not happened yet. -/
def fetch_history (res : HistoryFetchResult) : List Msg :=
  let messages := res.delivered
  if res.errored then messages else messages.reverse

/-- The startup configuration surface of bot.py lines 23-30: the values read
from the environment (DISCORD_TOKEN is None when unset) plus the fixed context
window constant. -/
structure BotConfig where
  DISCORD_TOKEN : Option String
  MAX_HISTORY_MESSAGES : Int
  MAX_COMPLETION_TOKENS : Int
deriving DecidableEq, Repr

/-- bot.py lines 32-34: the only startup validation performed — `if not
DISCORD_TOKEN: raise ValueError(...)`.  Python truthiness: None and the empty
string are falsy.  No other configuration value is checked. -/
def validate_startup_config (cfg : BotConfig) : Except String Unit :=
  if cfg.DISCORD_TOKEN.getD "" = "" then
    Except.error "DISCORD_TOKEN environment variable is required"
  else
    Except.ok ()

/-! ### Channel dispatch (on_message, bot.py lines 326-366)

The event loop is single threaded; on_message runs atomically between awaits.
The dispatch bookkeeping (membership test in processing_channels, queueing,
marking, and the completion step that pops the next queued message or cleans
up in the finally block) contains no await between reading and writing the
shared state, so it is modelled as a transition system whose two events are:

* arrive ch r — an on_message invocation for a fresh mention (request id r) in
  channel ch reaches the dispatch code (lines 337-348);
* finish ch ok — the currently awaited process_message call for channel ch
  returns with outcome ok (process_message catches every exception internally,
  bot.py lines 267-313, so it returns on success and on failure alike), and the
  handler atomically runs the completion step: the while-loop check and pop at
  lines 355-358, or the finally-block cleanup at lines 360-366.

Besides the two real program variables (processing_channels, message_queues)
the state carries ghost history variables used only to state the temporal
properties: the request in flight per channel, and the global arrival, start
and finish logs. -/

/-- Association-list lookup, modelling `message_queues[ch]` /
`ch in message_queues`. -/
def qLookup : List (Nat × List Nat) → Nat → Option (List Nat)
  | [], _ => none
  | (c, q) :: rest, ch => if c = ch then some q else qLookup rest ch

/-- Association-list update/insert, modelling `message_queues[ch] = q`
(inserting at the end on a fresh key, as a Python dict does). -/
def qSet : List (Nat × List Nat) → Nat → List Nat → List (Nat × List Nat)
  | [], ch, q => [(ch, q)]
  | (c, q0) :: rest, ch, q =>
    if c = ch then (c, q) :: rest else (c, q0) :: qSet rest ch q

/-- Association-list removal, modelling `del message_queues[ch]`. -/
def qErase : List (Nat × List Nat) → Nat → List (Nat × List Nat)
  | [], _ => []
  | (c, q0) :: rest, ch => if c = ch then rest else (c, q0) :: qErase rest ch

/-- The dispatch state.  processing_channels and message_queues are the two
module-level variables of bot.py (lines 43-44); inflight, arrived, started and
finished are ghost history variables (channel id paired with request id). -/
structure DState where
  processing_channels : List Nat
  message_queues : List (Nat × List Nat)
  inflight : List (Nat × Nat)
  arrived : List (Nat × Nat)
  started : List (Nat × Nat)
  finished : List (Nat × Nat)
deriving DecidableEq, Repr

/-- The initial dispatch state: empty set, empty dict (bot.py lines 43-44). -/
def initDState : DState := ⟨[], [], [], [], [], []⟩

/-- Dispatch events: a fresh mention arrives for a channel, or the in-flight
request of a channel completes with outcome ok (True: process_message
succeeded; False: it caught an internal error — either way it returned). -/
inductive DEvent where
  | arrive (ch r : Nat)
  | finish (ch : Nat) (ok : Bool)
deriving DecidableEq, Repr

/-- The arrival half of on_message (bot.py lines 337-352): if the channel is
marked processing, append the message to its queue (creating the entry if
missing, lines 341-343); otherwise mark the channel and begin processing the
message immediately (lines 348-352).  Request ids are required fresh — each
discord message is a distinct object. -/
def stepArrive (s : DState) (ch r : Nat) : Option DState :=
  if r ∈ s.arrived.map Prod.snd then none
  else if ch ∈ s.processing_channels then
    let q := (qLookup s.message_queues ch).getD []
    some { s with message_queues := qSet s.message_queues ch (q ++ [r]),
                  arrived := s.arrived ++ [(ch, r)] }
  else
    some { s with processing_channels := ch :: s.processing_channels,
                  inflight := (ch, r) :: s.inflight,
                  arrived := s.arrived ++ [(ch, r)],
                  started := s.started ++ [(ch, r)] }

/-- The completion half of on_message (bot.py lines 354-366): when the awaited
process_message for channel ch returns (with either outcome — the ok flag is
not consulted, matching the code, where neither the while loop nor the finally
block inspects how process_message fared), atomically either pop the oldest
queued message and begin processing it (lines 355-358), or run the finally
cleanup: discard the channel from processing_channels and delete its
now-empty queue entry (lines 360-366). -/
def stepFinish (s : DState) (ch : Nat) (_ok : Bool) : Option DState :=
  match s.inflight.find? (fun p => p.1 == ch) with
  | none => none
  | some (_, r) =>
    let inflight1 := s.inflight.eraseP (fun p => p.1 == ch)
    let finished1 := s.finished ++ [(ch, r)]
    match qLookup s.message_queues ch with
    | some (r2 :: rest) =>
      some { s with inflight := (ch, r2) :: inflight1,
                    message_queues := qSet s.message_queues ch rest,
                    finished := finished1,
                    started := s.started ++ [(ch, r2)] }
    | some [] =>
      some { s with inflight := inflight1,
                    message_queues := qErase s.message_queues ch,
                    processing_channels := s.processing_channels.erase ch,
                    finished := finished1 }
    | none =>
      some { s with inflight := inflight1,
                    processing_channels := s.processing_channels.erase ch,
                    finished := finished1 }

/-- One dispatch transition. -/
def dstep (s : DState) : DEvent → Option DState
  | .arrive ch r => stepArrive s ch r
  | .finish ch ok => stepFinish s ch ok

/-- Reachability of dispatch states from the initial state. -/
inductive DReachable : DState → Prop
  | init : DReachable initDState
  | step {s : DState} {e : DEvent} {s' : DState} :
      DReachable s → dstep s e = some s' → DReachable s'

/-- The requests recorded for channel ch in a (channel, request) log, in
log order. -/
def projFor (l : List (Nat × Nat)) (ch : Nat) : List Nat :=
  (l.filter (fun p => p.1 == ch)).map Prod.snd

/-- Requests of channel ch that have arrived, in arrival order. -/
def arrivedFor (s : DState) (ch : Nat) : List Nat :=
  projFor s.arrived ch

/-- Requests of channel ch that have begun processing, in start order. -/
def startedFor (s : DState) (ch : Nat) : List Nat :=
  projFor s.started ch

/-- Requests of channel ch whose processing has completed, in finish order. -/
def finishedFor (s : DState) (ch : Nat) : List Nat :=
  projFor s.finished ch

/-- The request currently in flight for channel ch (as a list of length ≤ 1
in every reachable state). -/
def inflightFor (s : DState) (ch : Nat) : List Nat :=
  projFor s.inflight ch

/-- The backlog of channel ch (empty when the channel has no queue entry). -/
def queueOf (s : DState) (ch : Nat) : List Nat :=
  (qLookup s.message_queues ch).getD []

/-- Token cost the assembler charges for one message: the length of the
encoding of its formatted line followed by a newline. -/
def msgCost (tk : Tokenizer) (m : Msg) : Nat :=
  (tk.encode (format_message m ++ "\n")).length

/-- Total token cost charged for a list of already formatted lines. -/
def sumTok (tk : Tokenizer) (L : List String) : Nat :=
  (L.map (fun l => (tk.encode (l ++ "\n")).length)).sum

/-- Modelled from the spec (section 4.2, continuation mode step 3, and claim
C7): the newest-to-oldest walk over (already newest-first, already
non-empty-filtered) messages that takes messages while their cumulative
formatted-line token count stays within the remaining budget and stops at the
first message that would push the total over it. -/
def spec_take_within_budget (tk : Tokenizer) (remaining : Int) :
    List Msg → List Msg
  | [] => []
  | m :: rest =>
    let c : Int := ((tk.encode (format_message m ++ "\n")).length : Int)
    if c ≤ remaining then m :: spec_take_within_budget tk (remaining - c) rest
    else []

/-- Modelled from the spec: the retained messages of continuation mode, in
newest-first selection order — the walk runs over the history (oldest first)
reversed, with empty/whitespace-only messages skipped. -/
def spec_retained_newest_first (tk : Tokenizer) (remaining : Int)
    (history : List Msg) : List Msg :=
  spec_take_within_budget tk remaining
    ((history.filter (fun m => !(isBlank m.content))).reverse)

/-- Modelled from the spec: rendering of the retained messages, each formatted
as "{display_name}: {content}\n", concatenated in the given order. -/
def spec_render_lines : List Msg → String
  | [] => ""
  | m :: rest => format_message m ++ "\n" ++ spec_render_lines rest

/-- A concrete character-level tokenizer (one token per character), used to
instantiate theorems that are parametric in the tokenizer oracle. -/
def charTok : Tokenizer where
  encode s := s.data.map Char.toNat
  decode ts := String.mk (ts.map Char.ofNat)

/-- A concrete dispatch state used to instantiate the reachable-state
theorems: channel 1 is processing request 10 while request 11 waits in its
backlog. -/
def exampleDState : DState :=
  ⟨[1], [(1, [11])], [(1, 10)], [(1, 10), (1, 11)], [(1, 10)], []⟩

/-- The dispatch invariant, preserved by every transition.  It records the
single-flight discipline, the correspondence between the processing mark, the
in-flight request and the queue entries, and the per-channel decomposition of
the arrival log into started-then-backlog and of the start log into
finished-then-in-flight. -/
structure DInv (s : DState) : Prop where
  arrivedNodup : (s.arrived.map Prod.snd).Nodup
  procNodup : s.processing_channels.Nodup
  inflightKeysNodup : (s.inflight.map Prod.fst).Nodup
  queueKeysNodup : (s.message_queues.map Prod.fst).Nodup
  procIffInflight : ∀ ch, ch ∈ s.processing_channels ↔ inflightFor s ch ≠ []
  queueEntryProc : ∀ ch, qLookup s.message_queues ch ≠ none → ch ∈ s.processing_channels
  arrivedDecomp : ∀ ch, arrivedFor s ch = startedFor s ch ++ queueOf s ch
  startedDecomp : ∀ ch, startedFor s ch = finishedFor s ch ++ inflightFor s ch
  finishedSndNodup : (s.finished.map Prod.snd).Nodup

theorem projFor_nil (ch : Nat) : projFor [] ch = [] := rfl

theorem projFor_cons (l : List (Nat × Nat)) (c r ch : Nat) :
    projFor ((c, r) :: l) ch
      = (if c = ch then [r] else []) ++ projFor l ch := by
  by_cases h : c = ch <;> simp [projFor, List.filter_cons, h]

theorem projFor_append_single (l : List (Nat × Nat)) (c r ch : Nat) :
    projFor (l ++ [(c, r)]) ch
      = projFor l ch ++ (if c = ch then [r] else []) := by
  simp only [projFor, List.filter_append, List.map_append]
  congr 1
  by_cases h : c = ch <;> simp [List.filter_cons, h]

/-- If a key does not occur in the log, its projection is empty. -/
theorem projFor_eq_nil_of_not_mem_keys (l : List (Nat × Nat)) (ch : Nat)
    (h : ch ∉ l.map Prod.fst) : projFor l ch = [] := by
  induction l with
  | nil => rfl
  | cons pr rest ih =>
    obtain ⟨c, r⟩ := pr
    simp only [List.map_cons, List.mem_cons] at h
    push_neg at h
    rw [projFor_cons, if_neg (fun hh => h.1 hh.symm), List.nil_append]
    exact ih h.2

/-- With no-duplicate keys, the projection of a key that carries entry
(ch, r) is exactly [r]. -/
theorem projFor_eq_single (l : List (Nat × Nat)) (ch r : Nat)
    (hnd : (l.map Prod.fst).Nodup) (hmem : (ch, r) ∈ l) :
    projFor l ch = [r] := by
  induction l with
  | nil => cases hmem
  | cons pr rest ih =>
    obtain ⟨c, q⟩ := pr
    simp only [List.map_cons, List.nodup_cons] at hnd
    rcases List.mem_cons.mp hmem with heq | hrest
    · cases heq
      rw [projFor_cons, if_pos rfl,
        projFor_eq_nil_of_not_mem_keys rest ch hnd.1]
      rfl
    · have hc : c ≠ ch := by
        rintro rfl
        exact hnd.1 (List.mem_map.mpr ⟨(c, r), hrest, rfl⟩)
      rw [projFor_cons, if_neg hc, List.nil_append]
      exact ih hnd.2 hrest

/-- Projections of eraseP by key: the erased key projects to empty (under
no-duplicate keys). -/
theorem projFor_eraseP_self (l : List (Nat × Nat)) (ch : Nat)
    (hnd : (l.map Prod.fst).Nodup) :
    projFor (l.eraseP (fun pr => pr.1 == ch)) ch = [] := by
  induction l with
  | nil => rfl
  | cons pr rest ih =>
    obtain ⟨c, q⟩ := pr
    simp only [List.map_cons, List.nodup_cons] at hnd
    by_cases hc : c = ch
    · have herase : ((c, q) :: rest).eraseP (fun pr => pr.1 == ch) = rest := by
        simp [List.eraseP_cons, hc]
      rw [herase]
      subst hc
      exact projFor_eq_nil_of_not_mem_keys rest c hnd.1
    · have herase : ((c, q) :: rest).eraseP (fun pr => pr.1 == ch)
          = (c, q) :: rest.eraseP (fun pr => pr.1 == ch) := by
        simp [List.eraseP_cons, hc]
      rw [herase, projFor_cons, if_neg hc, List.nil_append]
      exact ih hnd.2

/-- Projections of eraseP by key: other keys are untouched. -/
theorem projFor_eraseP_ne (l : List (Nat × Nat)) (ch ch' : Nat) (h : ch' ≠ ch) :
    projFor (l.eraseP (fun pr => pr.1 == ch)) ch' = projFor l ch' := by
  induction l with
  | nil => rfl
  | cons pr rest ih =>
    obtain ⟨c, q⟩ := pr
    by_cases hc : c = ch
    · have herase : ((c, q) :: rest).eraseP (fun pr => pr.1 == ch) = rest := by
        simp [List.eraseP_cons, hc]
      rw [herase, projFor_cons, if_neg (fun hh => h (hh.symm.trans hc)), List.nil_append]
    · have herase : ((c, q) :: rest).eraseP (fun pr => pr.1 == ch)
          = (c, q) :: rest.eraseP (fun pr => pr.1 == ch) := by
        simp [List.eraseP_cons, hc]
      rw [herase, projFor_cons, projFor_cons, ih]

theorem qLookup_qSet_self (l : List (Nat × List Nat)) (ch : Nat) (q : List Nat) :
    qLookup (qSet l ch q) ch = some q := by
  induction l with
  | nil => simp [qSet, qLookup]
  | cons pr rest ih =>
    obtain ⟨c, q0⟩ := pr
    by_cases hc : c = ch
    · subst hc
      simp [qSet, qLookup]
    · simp [qSet, qLookup, hc, ih]

theorem qLookup_qSet_ne (l : List (Nat × List Nat)) (ch ch' : Nat) (q : List Nat)
    (h : ch' ≠ ch) : qLookup (qSet l ch q) ch' = qLookup l ch' := by
  have h' : ¬ (ch = ch') := fun hh => h hh.symm
  induction l with
  | nil => simp [qSet, qLookup, h']
  | cons pr rest ih =>
    obtain ⟨c, q0⟩ := pr
    by_cases hc : c = ch
    · subst hc
      simp [qSet, qLookup, h']
    · by_cases hc' : c = ch' <;> simp [qSet, qLookup, hc, hc', ih, h]

theorem qLookup_qErase_self (l : List (Nat × List Nat)) (ch : Nat)
    (hnd : (l.map Prod.fst).Nodup) : qLookup (qErase l ch) ch = none := by
  induction l with
  | nil => rfl
  | cons pr rest ih =>
    obtain ⟨c, q0⟩ := pr
    simp only [List.map_cons, List.nodup_cons] at hnd
    by_cases hc : c = ch
    · subst hc
      rw [qErase, if_pos rfl]
      clear ih
      induction rest with
      | nil => rfl
      | cons pr2 rest2 ih2 =>
        obtain ⟨c2, q2⟩ := pr2
        simp only [List.map_cons, List.mem_cons, List.nodup_cons] at hnd
        have hne : ¬ (c2 = c) := fun hh => hnd.1 (Or.inl hh.symm)
        rw [qLookup, if_neg hne]
        exact ih2 ⟨fun hm => hnd.1 (Or.inr hm), hnd.2.2⟩
    · rw [qErase, if_neg hc, qLookup, if_neg hc]
      exact ih hnd.2

theorem qLookup_qErase_ne (l : List (Nat × List Nat)) (ch ch' : Nat)
    (h : ch' ≠ ch) : qLookup (qErase l ch) ch' = qLookup l ch' := by
  induction l with
  | nil => rfl
  | cons pr rest ih =>
    obtain ⟨c, q0⟩ := pr
    by_cases hc : c = ch
    · subst hc
      rw [qErase, if_pos rfl, qLookup, if_neg (fun hh => h hh.symm)]
    · rw [qErase, if_neg hc, qLookup, qLookup, ih]

theorem qErase_sublist (l : List (Nat × List Nat)) (ch : Nat) :
    (qErase l ch).Sublist l := by
  induction l with
  | nil => exact List.Sublist.refl _
  | cons pr rest ih =>
    obtain ⟨c, q0⟩ := pr
    by_cases hc : c = ch
    · rw [qErase, if_pos hc]
      exact List.sublist_cons_self _ _
    · rw [qErase, if_neg hc]
      exact List.Sublist.cons₂ _ ih

/-- The key list of qSet: unchanged when the key is present, extended at the
end when it is fresh. -/
theorem qSet_keys (l : List (Nat × List Nat)) (ch : Nat) (q : List Nat) :
    (qSet l ch q).map Prod.fst
      = if ch ∈ l.map Prod.fst then l.map Prod.fst
        else l.map Prod.fst ++ [ch] := by
  induction l with
  | nil => simp [qSet]
  | cons pr rest ih =>
    obtain ⟨c, q0⟩ := pr
    by_cases hc : c = ch
    · subst hc
      simp [qSet]
    · have hcc : ¬ (ch = c) := fun hh => hc hh.symm
      by_cases hm : ch ∈ rest.map Prod.fst <;>
        simp [qSet, hc, hcc, hm, ih]

theorem qSet_keys_nodup (l : List (Nat × List Nat)) (ch : Nat) (q : List Nat)
    (hnd : (l.map Prod.fst).Nodup) : ((qSet l ch q).map Prod.fst).Nodup := by
  rw [qSet_keys]
  by_cases hm : ch ∈ l.map Prod.fst
  · rw [if_pos hm]
    exact hnd
  · rw [if_neg hm]
    simp [List.nodup_append, hnd, hm]

/-- A key with an entry in the log has a non-empty projection. -/
theorem projFor_ne_nil_of_mem (l : List (Nat × Nat)) (ch r : Nat)
    (hm : (ch, r) ∈ l) : projFor l ch ≠ [] := by
  induction l with
  | nil => cases hm
  | cons pr rest ih =>
    obtain ⟨c, q⟩ := pr
    rw [projFor_cons]
    rcases List.mem_cons.mp hm with heq | hrest
    · cases heq
      simp
    · by_cases hc : c = ch <;> simp [hc, ih hrest]

/-- A key whose projection is empty has no entry in the log. -/
theorem not_mem_keys_of_projFor_eq_nil (l : List (Nat × Nat)) (ch : Nat)
    (h : projFor l ch = []) : ch ∉ l.map Prod.fst := by
  intro hmem
  rcases List.mem_map.mp hmem with ⟨⟨c, r⟩, hm, hfst⟩
  exact projFor_ne_nil_of_mem l ch r (by
    have : c = ch := hfst
    exact this ▸ hm) h

/-- Membership in a key projection is membership of the pair in the log. -/
theorem mem_projFor_iff (l : List (Nat × Nat)) (ch r : Nat) :
    r ∈ projFor l ch ↔ (ch, r) ∈ l := by
  induction l with
  | nil => simp [projFor_nil]
  | cons pr rest ih =>
    obtain ⟨c, q⟩ := pr
    rw [projFor_cons]
    by_cases hc : c = ch
    · subst hc
      simp [ih, Prod.ext_iff, eq_comm]
    · have hc' : ¬ (ch = c) := fun hh => hc hh.symm
      simp [hc, hc', ih, Prod.ext_iff]

/-- The projection of a key is a sublist of the value column of the log. -/
theorem projFor_sublist_map_snd (l : List (Nat × Nat)) (ch : Nat) :
    (projFor l ch).Sublist (l.map Prod.snd) :=
  (l.filter_sublist).map Prod.snd

/-- Under no-duplicate keys, find? by key returns the unique entry for
that key. -/
theorem find?_key_eq (l : List (Nat × Nat)) (ch r : Nat)
    (hnd : (l.map Prod.fst).Nodup) (hm : (ch, r) ∈ l) :
    l.find? (fun pr => pr.1 == ch) = some (ch, r) := by
  induction l with
  | nil => cases hm
  | cons pr rest ih =>
    obtain ⟨c, q⟩ := pr
    simp only [List.map_cons, List.nodup_cons] at hnd
    by_cases hc : c = ch
    · subst hc
      have heq : (c, r) = (c, q) := by
        rcases List.mem_cons.mp hm with heq | hrest
        · exact heq
        · exact absurd (List.mem_map.mpr ⟨(c, r), hrest, rfl⟩) hnd.1
      rw [List.find?_cons_of_pos _ (by simp)]
      rw [heq]
    · rw [List.find?_cons_of_neg _ (by simp [hc])]
      refine ih hnd.2 ?_
      rcases List.mem_cons.mp hm with heq | hrest
      · exact absurd (congrArg Prod.fst heq).symm hc
      · exact hrest

/-- With no-duplicate keys, a key projection has at most one element. -/
theorem projFor_length_le_one (l : List (Nat × Nat)) (ch : Nat)
    (hnd : (l.map Prod.fst).Nodup) : (projFor l ch).length ≤ 1 := by
  induction l with
  | nil => simp [projFor_nil]
  | cons pr rest ih =>
    obtain ⟨c, q⟩ := pr
    simp only [List.map_cons, List.nodup_cons] at hnd
    rw [projFor_cons]
    by_cases hc : c = ch
    · subst hc
      rw [projFor_eq_nil_of_not_mem_keys rest c hnd.1]
      simp
    · rw [if_neg hc, List.nil_append]
      exact ih hnd.2

/-- In an invariant state, per-channel arrival sequences have no duplicate
request ids. -/
theorem arrivedFor_nodup {s : DState} (inv : DInv s) (ch : Nat) :
    (arrivedFor s ch).Nodup :=
  inv.arrivedNodup.sublist (projFor_sublist_map_snd s.arrived ch)

/-- In an invariant state, per-channel start sequences have no duplicate
request ids. -/
theorem startedFor_nodup {s : DState} (inv : DInv s) (ch : Nat) :
    (startedFor s ch).Nodup :=
  (arrivedFor_nodup inv ch).sublist
    (List.IsPrefix.sublist ⟨queueOf s ch, (inv.arrivedDecomp ch).symm⟩)

/-- The request in flight for a channel has not been recorded as finished:
this is what makes the completion step fire exactly once per request. -/
theorem finished_fresh {s : DState} (inv : DInv s) {ch r : Nat}
    (hmem : (ch, r) ∈ s.inflight) : r ∉ s.finished.map Prod.snd := by
  intro hmemF
  rcases List.mem_map.mp hmemF with ⟨⟨c2, r2⟩, hF, hsnd⟩
  have hr2 : r2 = r := hsnd
  rw [hr2] at hF
  have hrI : r ∈ inflightFor s ch := (mem_projFor_iff _ _ _).mpr hmem
  have hrS : r ∈ startedFor s ch := by
    rw [inv.startedDecomp ch]
    exact List.mem_append_right _ hrI
  have hrF2 : r ∈ finishedFor s c2 := (mem_projFor_iff _ _ _).mpr hF
  by_cases hcc : c2 = ch
  · subst hcc
    have hnd : (startedFor s c2).Nodup := startedFor_nodup inv c2
    rw [inv.startedDecomp c2] at hnd
    exact (List.disjoint_of_nodup_append hnd) hrF2 hrI
  · have hrS2 : r ∈ startedFor s c2 := by
      rw [inv.startedDecomp c2]
      exact List.mem_append_left _ hrF2
    have hrA2 : r ∈ arrivedFor s c2 := by
      rw [inv.arrivedDecomp c2]
      exact List.mem_append_left _ hrS2
    have hrA : r ∈ arrivedFor s ch := by
      rw [inv.arrivedDecomp ch]
      exact List.mem_append_left _ hrS
    have hp2 : (c2, r) ∈ s.arrived := (mem_projFor_iff _ _ _).mp hrA2
    have hp : (ch, r) ∈ s.arrived := (mem_projFor_iff _ _ _).mp hrA
    have := List.inj_on_of_nodup_map inv.arrivedNodup hp2 hp rfl
    exact hcc (congrArg Prod.fst this)

/-- The backlog of a channel never contains the request currently in flight
for it. -/
theorem inflight_not_in_queue {s : DState} (inv : DInv s) {ch r : Nat}
    (hmem : (ch, r) ∈ s.inflight) : r ∉ queueOf s ch := by
  intro hq
  have hrI : r ∈ inflightFor s ch := (mem_projFor_iff _ _ _).mpr hmem
  have hrS : r ∈ startedFor s ch := by
    rw [inv.startedDecomp ch]
    exact List.mem_append_right _ hrI
  have hnd : (arrivedFor s ch).Nodup := arrivedFor_nodup inv ch
  rw [inv.arrivedDecomp ch] at hnd
  exact (List.disjoint_of_nodup_append hnd) hrS hq

/-- The dispatch invariant holds initially. -/
theorem dinv_init : DInv initDState := by
  refine ⟨?_, ?_, ?_, ?_, ?_, ?_, ?_, ?_, ?_⟩ <;>
    simp [initDState, arrivedFor, startedFor, finishedFor, inflightFor,
      queueOf, projFor, qLookup]

/-- The dispatch invariant is preserved by arrivals. -/
theorem dinv_stepArrive {s s' : DState} {ch r : Nat} (inv : DInv s)
    (hstep : stepArrive s ch r = some s') : DInv s' := by
  unfold stepArrive at hstep
  by_cases hfresh : r ∈ s.arrived.map Prod.snd
  · rw [if_pos hfresh] at hstep
    cases hstep
  rw [if_neg hfresh] at hstep
  by_cases hproc : ch ∈ s.processing_channels
  · -- channel busy: the request is queued
    rw [if_pos hproc] at hstep
    cases hstep
    refine ⟨?_, inv.procNodup, inv.inflightKeysNodup, ?_, ?_, ?_, ?_, ?_,
      inv.finishedSndNodup⟩
    · simp only [List.map_append, List.map_cons, List.map_nil]
      simp [List.nodup_append, inv.arrivedNodup, hfresh]
    · exact qSet_keys_nodup _ _ _ inv.queueKeysNodup
    · exact inv.procIffInflight
    · intro ch' hch'
      by_cases hc : ch' = ch
      · subst hc
        exact hproc
      · rw [qLookup_qSet_ne _ _ _ _ hc] at hch'
        exact inv.queueEntryProc ch' hch'
    · intro ch'
      simp only [arrivedFor, startedFor, queueOf]
      rw [projFor_append_single]
      by_cases hc : ch = ch'
      · subst hc
        rw [if_pos rfl, qLookup_qSet_self]
        have := inv.arrivedDecomp ch
        simp only [arrivedFor, startedFor, queueOf] at this
        rw [this, Option.getD_some, List.append_assoc]
      · rw [if_neg hc, qLookup_qSet_ne _ _ _ _ (fun hh => hc hh.symm),
          List.append_nil]
        exact inv.arrivedDecomp ch'
    · exact inv.startedDecomp
  · -- channel idle: the request begins processing immediately
    rw [if_neg hproc] at hstep
    cases hstep
    have hinfl : inflightFor s ch = [] := by
      by_contra hne
      exact hproc ((inv.procIffInflight ch).mpr hne)
    have hq : queueOf s ch = [] := by
      rw [queueOf]
      cases hql : qLookup s.message_queues ch with
      | none => rfl
      | some q =>
        exact absurd (inv.queueEntryProc ch (by rw [hql]; simp)) hproc
    refine ⟨?_, ?_, ?_, inv.queueKeysNodup, ?_, ?_, ?_, ?_, inv.finishedSndNodup⟩
    · simp only [List.map_append, List.map_cons, List.map_nil]
      simp [List.nodup_append, inv.arrivedNodup, hfresh]
    · exact List.nodup_cons.mpr ⟨hproc, inv.procNodup⟩
    · simp only [List.map_cons, List.nodup_cons]
      exact ⟨not_mem_keys_of_projFor_eq_nil _ _ hinfl, inv.inflightKeysNodup⟩
    · intro ch'
      simp only [inflightFor, List.mem_cons]
      rw [projFor_cons]
      by_cases hc : ch = ch'
      · subst hc
        simp
      · rw [if_neg hc, List.nil_append]
        have := inv.procIffInflight ch'
        simp only [inflightFor] at this
        rw [← this]
        constructor
        · rintro (hh | hh)
          · exact absurd hh.symm hc
          · exact hh
        · exact Or.inr
    · intro ch' hch'
      exact List.mem_cons.mpr (Or.inr (inv.queueEntryProc ch' hch'))
    · intro ch'
      simp only [arrivedFor, startedFor, queueOf]
      rw [projFor_append_single, projFor_append_single]
      by_cases hc : ch = ch'
      · subst hc
        have := inv.arrivedDecomp ch
        simp only [arrivedFor, startedFor, queueOf] at this
        have hq' := hq
        simp only [queueOf] at hq'
        simp [this, hq']
      · have := inv.arrivedDecomp ch'
        simp only [arrivedFor, startedFor, queueOf] at this
        simp [hc, this]
    · intro ch'
      simp only [startedFor, finishedFor, inflightFor]
      rw [projFor_append_single, projFor_cons]
      by_cases hc : ch = ch'
      · subst hc
        have := inv.startedDecomp ch
        simp only [startedFor, finishedFor, inflightFor] at this
        have hinfl' := hinfl
        simp only [inflightFor] at hinfl'
        simp [this, hinfl']
      · have := inv.startedDecomp ch'
        simp only [startedFor, finishedFor, inflightFor] at this
        simp [hc, this]

/-- The dispatch invariant is preserved by request completion. -/
theorem dinv_stepFinish {s s' : DState} {ch : Nat} {ok : Bool} (inv : DInv s)
    (hstep : stepFinish s ch ok = some s') : DInv s' := by
  unfold stepFinish at hstep
  cases hfind : s.inflight.find? (fun pr => pr.1 == ch) with
  | none =>
    rw [hfind] at hstep
    cases hstep
  | some pr =>
    obtain ⟨c, r⟩ := pr
    rw [hfind] at hstep
    have hc : c = ch := by simpa using List.find?_some hfind
    subst hc
    have hmem : (c, r) ∈ s.inflight := List.mem_of_find?_eq_some hfind
    have hinfl : projFor s.inflight c = [r] :=
      projFor_eq_single _ _ _ inv.inflightKeysNodup hmem
    have hproc : c ∈ s.processing_channels := by
      refine (inv.procIffInflight c).mpr ?_
      simp only [inflightFor]
      rw [hinfl]
      simp
    have herased : projFor (s.inflight.eraseP (fun pr => pr.1 == c)) c = [] :=
      projFor_eraseP_self _ _ inv.inflightKeysNodup
    have herasedKeys : ((s.inflight.eraseP (fun pr => pr.1 == c)).map Prod.fst).Nodup :=
      inv.inflightKeysNodup.sublist ((List.eraseP_sublist _).map _)
    have hndF : ((s.finished ++ [(c, r)]).map Prod.snd).Nodup := by
      simp only [List.map_append, List.map_cons, List.map_nil]
      simp [List.nodup_append, inv.finishedSndNodup, finished_fresh inv hmem]
    cases hql : qLookup s.message_queues c with
    | some q =>
      cases q with
      | cons r2 rest =>
        -- backlog non-empty: pop the oldest and begin processing it
        rw [hql] at hstep
        cases hstep
        refine ⟨inv.arrivedNodup, inv.procNodup, ?_, ?_, ?_, ?_, ?_, ?_, hndF⟩
        · simp only [List.map_cons, List.nodup_cons]
          exact ⟨not_mem_keys_of_projFor_eq_nil _ _ herased, herasedKeys⟩
        · exact qSet_keys_nodup _ _ _ inv.queueKeysNodup
        · intro ch'
          simp only [inflightFor]
          rw [projFor_cons]
          by_cases hcc : c = ch'
          · subst hcc
            simp [hproc]
          · rw [if_neg hcc, List.nil_append,
              projFor_eraseP_ne _ _ _ (fun hh => hcc hh.symm)]
            exact inv.procIffInflight ch'
        · intro ch' hch'
          by_cases hcc : ch' = c
          · subst hcc
            exact hproc
          · rw [qLookup_qSet_ne _ _ _ _ hcc] at hch'
            exact inv.queueEntryProc ch' hch'
        · intro ch'
          simp only [arrivedFor, startedFor, queueOf]
          rw [projFor_append_single]
          by_cases hcc : c = ch'
          · subst hcc
            rw [if_pos rfl, qLookup_qSet_self]
            have := inv.arrivedDecomp c
            simp only [arrivedFor, startedFor, queueOf] at this
            rw [hql] at this
            simp only [Option.getD_some] at this
            simp [this]
          · rw [if_neg hcc, List.append_nil,
              qLookup_qSet_ne _ _ _ _ (fun hh => hcc hh.symm)]
            exact inv.arrivedDecomp ch'
        · intro ch'
          simp only [startedFor, finishedFor, inflightFor]
          rw [projFor_append_single, projFor_append_single, projFor_cons]
          by_cases hcc : c = ch'
          · subst hcc
            have := inv.startedDecomp c
            simp only [startedFor, finishedFor, inflightFor] at this
            rw [hinfl] at this
            simp [this, herased]
          · have := inv.startedDecomp ch'
            simp only [startedFor, finishedFor, inflightFor] at this
            rw [projFor_eraseP_ne _ _ _ (fun hh => hcc hh.symm)]
            simp [hcc, this]
      | nil =>
        -- backlog entry present but drained: finally-cleanup removes it
        rw [hql] at hstep
        cases hstep
        refine ⟨inv.arrivedNodup, inv.procNodup.erase c, herasedKeys, ?_, ?_, ?_, ?_, ?_,
          hndF⟩
        · exact inv.queueKeysNodup.sublist ((qErase_sublist _ _).map _)
        · intro ch'
          simp only [inflightFor]
          by_cases hcc : c = ch'
          · subst hcc
            rw [herased]
            simp [inv.procNodup.mem_erase_iff]
          · rw [projFor_eraseP_ne _ _ _ (fun hh => hcc hh.symm),
              inv.procNodup.mem_erase_iff]
            have := inv.procIffInflight ch'
            simp only [inflightFor] at this
            rw [← this]
            constructor
            · exact And.right
            · intro hh
              exact ⟨fun h2 => hcc h2.symm, hh⟩
        · intro ch' hch'
          by_cases hcc : ch' = c
          · subst hcc
            rw [qLookup_qErase_self _ _ inv.queueKeysNodup] at hch'
            exact absurd rfl hch'
          · rw [qLookup_qErase_ne _ _ _ hcc] at hch'
            rw [inv.procNodup.mem_erase_iff]
            exact ⟨hcc, inv.queueEntryProc ch' hch'⟩
        · intro ch'
          simp only [arrivedFor, startedFor, queueOf]
          by_cases hcc : c = ch'
          · subst hcc
            rw [qLookup_qErase_self _ _ inv.queueKeysNodup]
            have := inv.arrivedDecomp c
            simp only [arrivedFor, startedFor, queueOf] at this
            rw [hql] at this
            simpa using this
          · rw [qLookup_qErase_ne _ _ _ (fun hh => hcc hh.symm)]
            exact inv.arrivedDecomp ch'
        · intro ch'
          simp only [startedFor, finishedFor, inflightFor]
          rw [projFor_append_single]
          by_cases hcc : c = ch'
          · subst hcc
            have := inv.startedDecomp c
            simp only [startedFor, finishedFor, inflightFor] at this
            rw [hinfl] at this
            simp [this, herased]
          · have := inv.startedDecomp ch'
            simp only [startedFor, finishedFor, inflightFor] at this
            rw [projFor_eraseP_ne _ _ _ (fun hh => hcc hh.symm)]
            simp [hcc, this]
    | none =>
      -- no queue entry was ever created: finally-cleanup clears the mark
      rw [hql] at hstep
      cases hstep
      refine ⟨inv.arrivedNodup, inv.procNodup.erase c, herasedKeys,
        inv.queueKeysNodup, ?_, ?_, ?_, ?_, hndF⟩
      · intro ch'
        simp only [inflightFor]
        by_cases hcc : c = ch'
        · subst hcc
          rw [herased]
          simp [inv.procNodup.mem_erase_iff]
        · rw [projFor_eraseP_ne _ _ _ (fun hh => hcc hh.symm),
            inv.procNodup.mem_erase_iff]
          have := inv.procIffInflight ch'
          simp only [inflightFor] at this
          rw [← this]
          constructor
          · exact And.right
          · intro hh
            exact ⟨fun h2 => hcc h2.symm, hh⟩
      · intro ch' hch'
        by_cases hcc : ch' = c
        · subst hcc
          rw [hql] at hch'
          exact absurd rfl hch'
        · rw [inv.procNodup.mem_erase_iff]
          exact ⟨hcc, inv.queueEntryProc ch' hch'⟩
      · exact inv.arrivedDecomp
      · intro ch'
        simp only [startedFor, finishedFor, inflightFor]
        rw [projFor_append_single]
        by_cases hcc : c = ch'
        · subst hcc
          have := inv.startedDecomp c
          simp only [startedFor, finishedFor, inflightFor] at this
          rw [hinfl] at this
          simp [this, herased]
        · have := inv.startedDecomp ch'
          simp only [startedFor, finishedFor, inflightFor] at this
          rw [projFor_eraseP_ne _ _ _ (fun hh => hcc hh.symm)]
          simp [hcc, this]

/-! ### Prompt assembler lemmas -/

/-- Python string truthiness guard `s if s else ""` is the identity. -/
theorem truthy_string_id (s : String) : (if s = "" then "" else s) = s := by
  split <;> simp_all

/-- Unfolding of build_prompt_with_budget once the tokenizer is loaded. -/
theorem build_prompt_some (tk : Tokenizer) (mc : Int) (messages : List Msg)
    (pfx : String) :
    build_prompt_with_budget (some tk) mc messages pfx
      = if (((tk.encode pfx).length : Int) ≥ GPT2_CONTEXT_WINDOW - mc) then
          tk.decode (pySliceTo (tk.encode pfx) (GPT2_CONTEXT_WINDOW - mc))
        else
          (if joinNL (accumulate_history tk
                ((GPT2_CONTEXT_WINDOW - mc) - ((tk.encode pfx).length : Int)) [] 0
                messages.reverse) = ""
           then joinNL (accumulate_history tk
                ((GPT2_CONTEXT_WINDOW - mc) - ((tk.encode pfx).length : Int)) [] 0
                messages.reverse)
           else joinNL (accumulate_history tk
                ((GPT2_CONTEXT_WINDOW - mc) - ((tk.encode pfx).length : Int)) [] 0
                messages.reverse) ++ "\n") ++ pfx := by
  simp only [build_prompt_with_budget, truthy_string_id]

/-- Unfolding of truncate_prompt_to_budget once the tokenizer is loaded. -/
theorem truncate_prompt_some (tk : Tokenizer) (mc : Int) (prompt : String) :
    truncate_prompt_to_budget (some tk) mc prompt
      = if (((tk.encode prompt).length : Int) ≤ GPT2_CONTEXT_WINDOW - mc) then prompt
        else tk.decode (pySliceFrom (tk.encode prompt) (-(GPT2_CONTEXT_WINDOW - mc))) := by
  simp only [truncate_prompt_to_budget]

/-- The accumulation loop of the source is exactly the specified
newest-to-oldest walk: it returns the walked messages' formatted lines in
chronological order, prepended to the initial accumulator. -/
theorem accumulate_history_eq (tk : Tokenizer) (rem : Int) :
    ∀ (ms : List Msg) (lines : List String) (total : Int),
      accumulate_history tk rem lines total ms
        = ((spec_take_within_budget tk (rem - total)
              (ms.filter (fun m => !(isBlank m.content)))).map format_message).reverse
          ++ lines := by
  intro ms
  induction ms with
  | nil =>
    intro lines total
    simp [accumulate_history, spec_take_within_budget]
  | cons m rest ih =>
    intro lines total
    by_cases hb : isBlank m.content
    · have hlhs : accumulate_history tk rem lines total (m :: rest)
          = accumulate_history tk rem lines total rest := by
        simp [accumulate_history, hb]
      rw [hlhs, List.filter_cons, ih]
      simp [hb]
    · rw [List.filter_cons]
      simp only [hb, Bool.not_false, if_pos]
      simp only [spec_take_within_budget]
      by_cases hover : total + ((tk.encode (format_message m ++ "\n")).length : Int) > rem
      · have hlhs : accumulate_history tk rem lines total (m :: rest) = lines := by
          simp only [accumulate_history, hb, Bool.false_eq_true, if_false]
          rw [if_pos hover]
        rw [hlhs, if_neg (by omega)]
        simp
      · have hlhs : accumulate_history tk rem lines total (m :: rest)
            = accumulate_history tk rem (format_message m :: lines)
                (total + ((tk.encode (format_message m ++ "\n")).length : Int)) rest := by
          simp only [accumulate_history, hb, Bool.false_eq_true, if_false]
          rw [if_neg hover]
        rw [hlhs, if_pos (by omega), ih]
        have harith : rem - total - ((tk.encode (format_message m ++ "\n")).length : Int)
            = rem - (total + ((tk.encode (format_message m ++ "\n")).length : Int)) := by
          omega
        rw [← harith]
        simp

/-- The walk never charges more than the remaining budget. -/
theorem spec_take_sum_le (tk : Tokenizer) :
    ∀ (ms : List Msg) (rem : Int), 0 ≤ rem →
      ((sumTok tk ((spec_take_within_budget tk rem ms).map format_message) : Int)) ≤ rem := by
  intro ms
  induction ms with
  | nil =>
    intro rem h
    simpa [spec_take_within_budget, sumTok] using h
  | cons m rest ih =>
    intro rem h
    simp only [spec_take_within_budget]
    by_cases hc : ((tk.encode (format_message m ++ "\n")).length : Int) ≤ rem
    · rw [if_pos hc]
      have hrec := ih (rem - ((tk.encode (format_message m ++ "\n")).length : Int))
        (by omega)
      simp only [List.map_cons, sumTok, List.sum_cons] at hrec ⊢
      push_cast at hrec ⊢
      omega
    · rw [if_neg hc]
      simpa [sumTok] using h

theorem sumTok_reverse (tk : Tokenizer) (L : List String) :
    sumTok tk L.reverse = sumTok tk L := by
  simp [sumTok, List.map_reverse, List.sum_reverse]

/-- Token subadditivity extends to the newline-joined rendering: the tokens of
the joined history text are bounded by the per-line token charges. -/
theorem tokens_joinNL_le (tk : Tokenizer)
    (hsub : ∀ a b, (tk.encode (a ++ b)).length
      ≤ (tk.encode a).length + (tk.encode b).length) :
    ∀ L : List String, L ≠ [] →
      (tk.encode (joinNL L ++ "\n")).length ≤ sumTok tk L := by
  intro L
  induction L with
  | nil =>
    intro h
    exact absurd rfl h
  | cons l ls ih =>
    intro _
    cases ls with
    | nil => simp [joinNL, sumTok]
    | cons l2 ls2 =>
      have hstep : joinNL (l :: l2 :: ls2) ++ "\n"
          = (l ++ "\n") ++ (joinNL (l2 :: ls2) ++ "\n") := by
        show (l ++ "\n" ++ joinNL (l2 :: ls2)) ++ "\n"
          = (l ++ "\n") ++ (joinNL (l2 :: ls2) ++ "\n")
        rw [String.append_assoc]
      rw [hstep]
      calc (tk.encode ((l ++ "\n") ++ (joinNL (l2 :: ls2) ++ "\n"))).length
          ≤ (tk.encode (l ++ "\n")).length
              + (tk.encode (joinNL (l2 :: ls2) ++ "\n")).length := hsub _ _
        _ ≤ (tk.encode (l ++ "\n")).length + sumTok tk (l2 :: ls2) := by
              have := ih (by simp)
              omega
        _ = sumTok tk (l :: l2 :: ls2) := by simp [sumTok]

/-- A formatted line is never the empty string. -/
theorem format_message_ne_empty (m : Msg) : format_message m ≠ "" := by
  intro h
  have hlen := congrArg String.length h
  rw [format_message, String.length_append, String.length_append] at hlen
  have h2 : (": ").length = 2 := by decide
  have h0 : ("" : String).length = 0 := by decide
  rw [h2, h0] at hlen
  omega

/-- The newline join of formatted lines of a non-empty message list is
non-empty. -/
theorem joinNL_map_fmt_ne_empty :
    ∀ (M : List Msg), M ≠ [] → joinNL (M.map format_message) ≠ "" := by
  intro M
  cases M with
  | nil =>
    intro h
    exact absurd rfl h
  | cons m rest =>
    intro _
    cases rest with
    | nil => simpa [joinNL] using format_message_ne_empty m
    | cons m2 rest2 =>
      simp only [List.map_cons, joinNL]
      intro h
      have hlen := congrArg String.length h
      rw [String.length_append, String.length_append] at hlen
      have h1 : ("\n").length = 1 := by decide
      have h0 : ("" : String).length = 0 := by decide
      rw [h1, h0] at hlen
      omega

/-- The source's join-then-maybe-newline rendering agrees with the specified
per-line rendering. -/
theorem joinNL_render (M : List Msg) :
    (if joinNL (M.map format_message) = "" then joinNL (M.map format_message)
     else joinNL (M.map format_message) ++ "\n") = spec_render_lines M := by
  induction M with
  | nil => simp [joinNL, spec_render_lines]
  | cons m rest ih =>
    cases rest with
    | nil =>
      rw [if_neg (by simpa [joinNL] using format_message_ne_empty m)]
      show format_message m ++ "\n" = format_message m ++ "\n" ++ spec_render_lines []
      rw [show spec_render_lines [] = "" from rfl, String.append_empty]
    | cons m2 rest2 =>
      have hJ : joinNL ((m2 :: rest2).map format_message) ≠ "" :=
        joinNL_map_fmt_ne_empty _ (by simp)
      rw [if_neg hJ] at ih
      rw [if_neg (joinNL_map_fmt_ne_empty (m :: m2 :: rest2) (by simp))]
      show ((format_message m ++ "\n") ++ joinNL ((m2 :: rest2).map format_message)) ++ "\n"
        = format_message m ++ "\n" ++ spec_render_lines (m2 :: rest2)
      rw [String.append_assoc, ih]

/-- The walk is maximal: any within-budget contiguous run from the head of the
walked list is no longer than what the walk retains. -/
theorem spec_take_maximal (tk : Tokenizer) :
    ∀ (ms P : List Msg) (rem : Int),
      P <+: ms →
      ((P.map (fun m => (msgCost tk m : Int))).sum ≤ rem) →
      P.length ≤ (spec_take_within_budget tk rem ms).length := by
  intro ms
  induction ms with
  | nil =>
    intro P rem hp _
    rw [List.prefix_nil.mp hp]
    exact Nat.le_refl 0
  | cons m rest ih =>
    intro P rem hp hsum
    cases P with
    | nil => simp
    | cons x P2 =>
      obtain ⟨hx, hP2⟩ := List.cons_prefix_cons.mp hp
      subst hx
      simp only [msgCost, List.map_cons, List.sum_cons] at hsum
      have hnn : 0 ≤ (P2.map
          (fun m => ((tk.encode (format_message m ++ "\n")).length : Int))).sum := by
        apply List.sum_nonneg
        intro a ha
        rcases List.mem_map.mp ha with ⟨mm, _, rfl⟩
        positivity
      simp only [spec_take_within_budget]
      rw [if_pos (by omega)]
      simp only [List.length_cons, Nat.succ_le_succ_iff]
      refine ih P2 _ hP2 ?_
      simp only [msgCost]
      omega

/-- Every reachable dispatch state satisfies the invariant. -/
theorem dreachable_dinv {s : DState} (h : DReachable s) : DInv s := by
  induction h with
  | init => exact dinv_init
  | step hr hstep ih =>
    rename_i s0 e s1
    cases e with
    | arrive ch r => exact dinv_stepArrive ih hstep
    | finish ch ok => exact @dinv_stepFinish s0 s1 ch ok ih hstep

/-! ### Character tokenizer facts (used to instantiate oracle hypotheses) -/

theorem charTok_encode_append (a b : String) :
    charTok.encode (a ++ b) = charTok.encode a ++ charTok.encode b := by
  show (a ++ b).data.map Char.toNat = a.data.map Char.toNat ++ b.data.map Char.toNat
  rw [String.data_append, List.map_append]

theorem charTok_subadditive (a b : String) :
    (charTok.encode (a ++ b)).length
      ≤ (charTok.encode a).length + (charTok.encode b).length := by
  rw [charTok_encode_append]
  simp

theorem charTok_reencode_le (ts : List Nat) :
    (charTok.encode (charTok.decode ts)).length ≤ ts.length := by
  show ((String.mk (ts.map Char.ofNat)).data.map Char.toNat).length ≤ ts.length
  simp

/-! ### Claim theorems: prompt assembler -/

/-- C1: every prompt assembled by either mode tokenizes within
TokenBudget = context window − max completion tokens.  The tokenizer oracle is
abstract, so the facts the source relies on are explicit hypotheses: the
budget is positive (the spec's TokenBudget invariant), re-encoding a decoded
token slice yields no more tokens than the slice, and encoding is subadditive
over concatenation. -/
theorem assembled_prompt_within_budget (tk : Tokenizer) (mc : Int)
    (hmc : 0 < GPT2_CONTEXT_WINDOW - mc)
    (hre : ∀ ts, (tk.encode (tk.decode ts)).length ≤ ts.length)
    (hsub : ∀ a b, (tk.encode (a ++ b)).length
      ≤ (tk.encode a).length + (tk.encode b).length)
    (messages : List Msg) (pfx : String) (prompt : String) :
    ((tk.encode (build_prompt_with_budget (some tk) mc messages pfx)).length : Int)
        ≤ GPT2_CONTEXT_WINDOW - mc
      ∧ ((tk.encode (truncate_prompt_to_budget (some tk) mc prompt)).length : Int)
        ≤ GPT2_CONTEXT_WINDOW - mc := by
  constructor
  · rw [build_prompt_some]
    by_cases hge : (((tk.encode pfx).length : Int) ≥ GPT2_CONTEXT_WINDOW - mc)
    · rw [if_pos hge]
      have h1 : pySliceTo (tk.encode pfx) (GPT2_CONTEXT_WINDOW - mc)
          = (tk.encode pfx).take (GPT2_CONTEXT_WINDOW - mc).toNat := by
        rw [pySliceTo, if_neg (by omega)]
      rw [h1]
      have h2 := hre ((tk.encode pfx).take (GPT2_CONTEXT_WINDOW - mc).toNat)
      have h3 : ((tk.encode pfx).take (GPT2_CONTEXT_WINDOW - mc).toNat).length
          ≤ (GPT2_CONTEXT_WINDOW - mc).toNat := by
        simp [List.length_take]
      omega
    · rw [if_neg hge]
      have hrem0 : 0 ≤ (GPT2_CONTEXT_WINDOW - mc) - ((tk.encode pfx).length : Int) := by
        omega
      have hLeq : accumulate_history tk
            ((GPT2_CONTEXT_WINDOW - mc) - ((tk.encode pfx).length : Int)) [] 0
            messages.reverse
          = ((spec_take_within_budget tk
                ((GPT2_CONTEXT_WINDOW - mc) - ((tk.encode pfx).length : Int))
                (messages.reverse.filter (fun m => !(isBlank m.content)))).map
              format_message).reverse := by
        rw [accumulate_history_eq]
        simp
      have hsum : (sumTok tk (accumulate_history tk
            ((GPT2_CONTEXT_WINDOW - mc) - ((tk.encode pfx).length : Int)) [] 0
            messages.reverse) : Int)
          ≤ (GPT2_CONTEXT_WINDOW - mc) - ((tk.encode pfx).length : Int) := by
        rw [hLeq, sumTok_reverse]
        exact spec_take_sum_le tk _ _ hrem0
      by_cases hemp : joinNL (accumulate_history tk
          ((GPT2_CONTEXT_WINDOW - mc) - ((tk.encode pfx).length : Int)) [] 0
          messages.reverse) = ""
      · rw [if_pos hemp, hemp, String.empty_append]
        omega
      · rw [if_neg hemp]
        have hLne : accumulate_history tk
            ((GPT2_CONTEXT_WINDOW - mc) - ((tk.encode pfx).length : Int)) [] 0
            messages.reverse ≠ [] := by
          intro h
          rw [h] at hemp
          exact hemp rfl
        have h1 := hsub (joinNL (accumulate_history tk
          ((GPT2_CONTEXT_WINDOW - mc) - ((tk.encode pfx).length : Int)) [] 0
          messages.reverse) ++ "\n") pfx
        have h2 := tokens_joinNL_le tk hsub _ hLne
        omega
  · rw [truncate_prompt_some]
    by_cases hle : (((tk.encode prompt).length : Int) ≤ GPT2_CONTEXT_WINDOW - mc)
    · rw [if_pos hle]
      exact hle
    · rw [if_neg hle]
      have h1 : pySliceFrom (tk.encode prompt) (-(GPT2_CONTEXT_WINDOW - mc))
          = (tk.encode prompt).drop
              ((tk.encode prompt).length - (GPT2_CONTEXT_WINDOW - mc).toNat) := by
        rw [pySliceFrom, if_pos (by omega)]
        rw [neg_neg]
      rw [h1]
      have h2 := hre ((tk.encode prompt).drop
        ((tk.encode prompt).length - (GPT2_CONTEXT_WINDOW - mc).toNat))
      have h3 : ((tk.encode prompt).drop
            ((tk.encode prompt).length - (GPT2_CONTEXT_WINDOW - mc).toNat)).length
          = (tk.encode prompt).length
            - ((tk.encode prompt).length - (GPT2_CONTEXT_WINDOW - mc).toNat) := by
        simp [List.length_drop]
      omega

/-- C1 witness: the bound instantiated at the character tokenizer with a
positive budget, a concrete history, prefix and prompt. -/
theorem assembled_prompt_within_budget_witness :
    (0 : Int) < GPT2_CONTEXT_WINDOW - 1000
      ∧ (((charTok.encode (build_prompt_with_budget (some charTok) 1000
            [⟨"alice", "hi"⟩, ⟨"bob", "hello there"⟩] "go on")).length : Int)
            ≤ GPT2_CONTEXT_WINDOW - 1000
          ∧ ((charTok.encode (truncate_prompt_to_budget (some charTok) 1000
            "a somewhat long direct prompt that exceeds twenty four tokens")).length : Int)
            ≤ GPT2_CONTEXT_WINDOW - 1000) :=
  ⟨by decide,
   assembled_prompt_within_budget charTok 1000 (by decide) charTok_reencode_le
     charTok_subadditive [⟨"alice", "hi"⟩, ⟨"bob", "hello there"⟩] "go on"
     "a somewhat long direct prompt that exceeds twenty four tokens"⟩

/-- C10: with the tokenizer not yet loaded (None), both prompt operations
return their text input unchanged — no budget enforcement happens. -/
theorem no_tokenizer_no_budget_enforcement (mc : Int) (messages : List Msg)
    (pfx prompt : String) :
    build_prompt_with_budget none mc messages pfx = pfx
      ∧ truncate_prompt_to_budget none mc prompt = prompt :=
  ⟨rfl, rfl⟩

/-- C5: direct mode.  A prompt within the (positive) budget is returned
unchanged; a prompt over budget becomes the decode of the last TokenBudget
tokens of its encoding (the earliest tokens are dropped). -/
theorem direct_mode_truncation (tk : Tokenizer) (mc : Int)
    (hmc : 0 < GPT2_CONTEXT_WINDOW - mc) (prompt : String) :
    (((tk.encode prompt).length : Int) ≤ GPT2_CONTEXT_WINDOW - mc →
      truncate_prompt_to_budget (some tk) mc prompt = prompt)
    ∧ (((tk.encode prompt).length : Int) > GPT2_CONTEXT_WINDOW - mc →
      truncate_prompt_to_budget (some tk) mc prompt
        = tk.decode ((tk.encode prompt).drop
            ((tk.encode prompt).length - (GPT2_CONTEXT_WINDOW - mc).toNat))) := by
  constructor
  · intro hle
    rw [truncate_prompt_some, if_pos hle]
  · intro hgt
    rw [truncate_prompt_some, if_neg (by omega), pySliceFrom, if_pos (by omega),
      neg_neg]

/-- C5 witness: with a 5-token budget, an 11-character prompt is truncated to
its last 5 characters by the character tokenizer. -/
theorem direct_mode_truncation_witness :
    (0 : Int) < GPT2_CONTEXT_WINDOW - 1019
      ∧ ((((charTok.encode "hello world").length : Int) ≤ GPT2_CONTEXT_WINDOW - 1019 →
          truncate_prompt_to_budget (some charTok) 1019 "hello world" = "hello world")
        ∧ (((charTok.encode "hello world").length : Int) > GPT2_CONTEXT_WINDOW - 1019 →
          truncate_prompt_to_budget (some charTok) 1019 "hello world"
            = charTok.decode ((charTok.encode "hello world").drop
                ((charTok.encode "hello world").length
                  - (GPT2_CONTEXT_WINDOW - 1019).toNat))))
      ∧ truncate_prompt_to_budget (some charTok) 1019 "hello world" = "world" :=
  ⟨by decide, direct_mode_truncation charTok 1019 (by decide) "hello world",
    by decide⟩

/-- C6: continuation mode.  When the suffix alone reaches the (positive)
budget, the assembled prompt is the decode of the first TokenBudget suffix
tokens, whatever the history is — no history message enters the prompt. -/
theorem suffix_overflow_drops_history (tk : Tokenizer) (mc : Int)
    (hpos : 0 < GPT2_CONTEXT_WINDOW - mc) (messages : List Msg) (sfx : String)
    (hge : ((tk.encode sfx).length : Int) ≥ GPT2_CONTEXT_WINDOW - mc) :
    build_prompt_with_budget (some tk) mc messages sfx
      = tk.decode ((tk.encode sfx).take (GPT2_CONTEXT_WINDOW - mc).toNat) := by
  rw [build_prompt_some, if_pos hge, pySliceTo, if_neg (by omega)]

/-- C6 witness: with a 5-token budget and an 8-character suffix, the prompt is
the first 5 characters of the suffix, and the non-empty history is dropped. -/
theorem suffix_overflow_drops_history_witness :
    (0 : Int) < GPT2_CONTEXT_WINDOW - 1019
      ∧ ((charTok.encode "abcdefgh").length : Int) ≥ GPT2_CONTEXT_WINDOW - 1019
      ∧ build_prompt_with_budget (some charTok) 1019 [⟨"bob", "hi"⟩] "abcdefgh"
          = charTok.decode ((charTok.encode "abcdefgh").take
              (GPT2_CONTEXT_WINDOW - 1019).toNat)
      ∧ build_prompt_with_budget (some charTok) 1019 [⟨"bob", "hi"⟩] "abcdefgh"
          = "abcde" :=
  ⟨by decide, by decide,
    suffix_overflow_drops_history charTok 1019 (by decide) [⟨"bob", "hi"⟩]
      "abcdefgh" (by decide),
    by decide⟩

/-- C7: continuation mode with an in-budget suffix.  The assembled prompt is
exactly the specified walk's retained messages rendered oldest to newest, each
as "{display_name}: {content}\n", followed by the suffix; when nothing is
retained the prompt is the suffix alone; and the retained run is maximal among
within-budget prefixes of the newest-first non-blank walk order. -/
theorem history_selection (tk : Tokenizer) (mc : Int) (messages : List Msg)
    (sfx : String)
    (hlt : ((tk.encode sfx).length : Int) < GPT2_CONTEXT_WINDOW - mc) :
    (build_prompt_with_budget (some tk) mc messages sfx
        = spec_render_lines ((spec_retained_newest_first tk
            ((GPT2_CONTEXT_WINDOW - mc) - ((tk.encode sfx).length : Int))
            messages).reverse) ++ sfx)
    ∧ (spec_retained_newest_first tk
          ((GPT2_CONTEXT_WINDOW - mc) - ((tk.encode sfx).length : Int)) messages = []
        → build_prompt_with_budget (some tk) mc messages sfx = sfx)
    ∧ (∀ P : List Msg,
        P <+: (messages.filter (fun m => !(isBlank m.content))).reverse →
        (P.map (fun m => (msgCost tk m : Int))).sum
            ≤ (GPT2_CONTEXT_WINDOW - mc) - ((tk.encode sfx).length : Int) →
        P.length ≤ (spec_retained_newest_first tk
            ((GPT2_CONTEXT_WINDOW - mc) - ((tk.encode sfx).length : Int))
            messages).length) := by
  have hacc : accumulate_history tk
      ((GPT2_CONTEXT_WINDOW - mc) - ((tk.encode sfx).length : Int)) [] 0
      messages.reverse
      = ((spec_retained_newest_first tk
          ((GPT2_CONTEXT_WINDOW - mc) - ((tk.encode sfx).length : Int))
          messages).reverse.map format_message) := by
    rw [accumulate_history_eq]
    simp only [sub_zero, List.append_nil, spec_retained_newest_first]
    rw [List.filter_reverse, List.map_reverse]
  have hmain : build_prompt_with_budget (some tk) mc messages sfx
      = spec_render_lines ((spec_retained_newest_first tk
          ((GPT2_CONTEXT_WINDOW - mc) - ((tk.encode sfx).length : Int))
          messages).reverse) ++ sfx := by
    rw [build_prompt_some, if_neg (by omega), hacc, joinNL_render]
  refine ⟨hmain, ?_, ?_⟩
  · intro hnone
    rw [hmain, hnone]
    rw [show spec_render_lines (([] : List Msg).reverse) = "" from rfl,
      String.empty_append]
  · intro P hp hsum
    simp only [spec_retained_newest_first]
    exact spec_take_maximal tk _ P _ hp hsum

/-- C7 witness: a 20-token budget, a 2-token suffix, a history with one blank
message — the two non-blank messages both fit and are rendered oldest first,
then the suffix. -/
theorem history_selection_witness :
    ((charTok.encode "go").length : Int) < GPT2_CONTEXT_WINDOW - 1004
      ∧ (build_prompt_with_budget (some charTok) 1004
          [⟨"al", "hi"⟩, ⟨"bo", " "⟩, ⟨"cy", "yo"⟩] "go"
            = spec_render_lines ((spec_retained_newest_first charTok
                ((GPT2_CONTEXT_WINDOW - 1004) - ((charTok.encode "go").length : Int))
                [⟨"al", "hi"⟩, ⟨"bo", " "⟩, ⟨"cy", "yo"⟩]).reverse) ++ "go")
      ∧ build_prompt_with_budget (some charTok) 1004
          [⟨"al", "hi"⟩, ⟨"bo", " "⟩, ⟨"cy", "yo"⟩] "go" = "al: hi\ncy: yo\ngo" :=
  ⟨by decide,
    (history_selection charTok 1004 [⟨"al", "hi"⟩, ⟨"bo", " "⟩, ⟨"cy", "yo"⟩] "go"
      (by decide)).1,
    by decide⟩

/-- C8 counterexample: with MAX_COMPLETION_TOKENS = 1024 the derived token
budget is 0 (non-positive), yet startup validation succeeds — the process
starts — and the pipeline does not even degrade to truncation: the Python
slice input_tokens[-0:] keeps every token, so a 2-token prompt passes through
a 0-token budget untouched. -/
theorem nonpositive_budget_not_fatal :
    validate_startup_config ⟨some "secret-token", 100, 1024⟩ = Except.ok ()
      ∧ GPT2_CONTEXT_WINDOW - (1024 : Int) ≤ 0
      ∧ truncate_prompt_to_budget (some charTok) 1024 "hi" = "hi"
      ∧ (charTok.encode "hi").length = 2 :=
  ⟨rfl, by decide, by decide, by decide⟩

/-- C8 amended: startup validation inspects only the credential — it is
insensitive to MAX_COMPLETION_TOKENS (and MAX_HISTORY_MESSAGES), so a
non-positive token budget never prevents startup; validation succeeds exactly
when the credential is present and non-empty. -/
theorem startup_validation_ignores_budget (cfg : BotConfig) (mc mh : Int) :
    validate_startup_config ⟨cfg.DISCORD_TOKEN, mh, mc⟩ = validate_startup_config cfg
      ∧ (validate_startup_config cfg = Except.ok ()
          ↔ cfg.DISCORD_TOKEN.getD "" ≠ "") := by
  refine ⟨rfl, ?_⟩
  by_cases h : cfg.DISCORD_TOKEN.getD "" = "" <;>
    simp [validate_startup_config, h]

/-- C9 counterexample: a transport error striking after one message was
delivered does not yield empty history — fetch_history returns the partial
list. -/
theorem fetch_error_counterexample :
    fetch_history ⟨[⟨"alice", "hi"⟩], true⟩ = [⟨"alice", "hi"⟩]
      ∧ fetch_history ⟨[⟨"alice", "hi"⟩], true⟩ ≠ ([] : List Msg) :=
  ⟨rfl, by decide⟩

/-- C9 amended: the fetch boundary swallows the transport error and the
request proceeds: on error fetch_history returns exactly the messages
accumulated before the failure, without the chronological reversal (the empty
list precisely when the error precedes the first message); on success it
returns the full delivered list reversed; and prompt assembly runs on the
returned list as on any other history. -/
theorem fetch_error_partial_history (d : List Msg) :
    fetch_history ⟨d, true⟩ = d
      ∧ fetch_history ⟨[], true⟩ = ([] : List Msg)
      ∧ fetch_history ⟨d, false⟩ = d.reverse
      ∧ ∀ (tok : Option Tokenizer) (mc : Int) (sfx : String),
          build_prompt_with_budget tok mc (fetch_history ⟨d, true⟩) sfx
            = build_prompt_with_budget tok mc d sfx :=
  ⟨rfl, rfl, rfl, fun _ _ _ => rfl⟩

/-! ### Claim theorems: channel dispatch -/

/-- The witness state is reachable: two mentions arrive in channel 1 before
the first completes. -/
theorem exampleDState_reachable : DReachable exampleDState := by
  have h1 : dstep initDState (DEvent.arrive 1 10)
      = some ⟨[1], [], [(1, 10)], [(1, 10)], [(1, 10)], []⟩ := by decide
  have h2 : dstep (⟨[1], [], [(1, 10)], [(1, 10)], [(1, 10)], []⟩ : DState)
      (DEvent.arrive 1 11) = some exampleDState := by decide
  exact DReachable.step (DReachable.step DReachable.init h1) h2

/-- C2: in every reachable dispatch state, a channel is marked processing iff
it has a request-processing sequence in flight, it has at most one request in
flight, and a queue entry (empty or not) exists only for a marked channel — so
a non-empty backlog implies the channel is processing, and no empty-queue
entry survives once the channel finishes and is unmarked. -/
theorem channel_queue_state_invariant {s : DState} (hs : DReachable s) (ch : Nat) :
    (ch ∈ s.processing_channels ↔ inflightFor s ch ≠ [])
    ∧ (inflightFor s ch).length ≤ 1
    ∧ (qLookup s.message_queues ch ≠ none → ch ∈ s.processing_channels) := by
  have inv := dreachable_dinv hs
  exact ⟨inv.procIffInflight ch,
    projFor_length_le_one _ _ inv.inflightKeysNodup,
    inv.queueEntryProc ch⟩

/-- C2 witness: the invariant instantiated at the concrete reachable state in
which channel 1 processes request 10 with request 11 queued. -/
theorem channel_queue_state_invariant_witness :
    ((1 ∈ exampleDState.processing_channels ↔ inflightFor exampleDState 1 ≠ [])
      ∧ (inflightFor exampleDState 1).length ≤ 1
      ∧ (qLookup exampleDState.message_queues 1 ≠ none
          → 1 ∈ exampleDState.processing_channels))
    ∧ inflightFor exampleDState 1 = [10] :=
  ⟨channel_queue_state_invariant exampleDState_reachable 1, by decide⟩

/-- C3: FIFO per channel — in every reachable state, each channel's sequence
of requests that have begun processing is a prefix of its arrival sequence (so
processing begins in exact submission order); arrivals decompose into
started-then-backlog, with the backlog consumed from its oldest end; and
starts advance one at a time: all started requests but the at-most-one in
flight are finished. -/
theorem fifo_per_channel {s : DState} (hs : DReachable s) (ch : Nat) :
    arrivedFor s ch = startedFor s ch ++ queueOf s ch
    ∧ startedFor s ch <+: arrivedFor s ch
    ∧ startedFor s ch = finishedFor s ch ++ inflightFor s ch
    ∧ (inflightFor s ch).length ≤ 1 := by
  have inv := dreachable_dinv hs
  exact ⟨inv.arrivedDecomp ch, ⟨queueOf s ch, (inv.arrivedDecomp ch).symm⟩,
    inv.startedDecomp ch, projFor_length_le_one _ _ inv.inflightKeysNodup⟩

/-- C3 witness: at the concrete reachable state, arrivals [10, 11] decompose
into started [10] followed by backlog [11], in submission order. -/
theorem fifo_per_channel_witness :
    (arrivedFor exampleDState 1 = startedFor exampleDState 1 ++ queueOf exampleDState 1
      ∧ startedFor exampleDState 1 <+: arrivedFor exampleDState 1
      ∧ startedFor exampleDState 1
          = finishedFor exampleDState 1 ++ inflightFor exampleDState 1
      ∧ (inflightFor exampleDState 1).length ≤ 1)
    ∧ arrivedFor exampleDState 1 = [10, 11]
    ∧ startedFor exampleDState 1 = [10]
    ∧ queueOf exampleDState 1 = [11] :=
  ⟨fifo_per_channel exampleDState_reachable 1, by decide, by decide, by decide⟩

/-- C4: the completion step runs exactly once per request, regardless of how
processing fared.  In every reachable state no request is recorded finished
twice, and for any request in flight the finish transition is enabled, yields
the same state for the success and the failure outcome, records the request
finished (it was not finished before), removes it from flight and from the
backlog, and either clears the channel's processing mark (empty backlog) or
starts exactly the oldest backlog entry. -/
theorem completion_exactly_once {s : DState} (hs : DReachable s) (ch r : Nat)
    (hin : (ch, r) ∈ s.inflight) :
    (s.finished.map Prod.snd).Nodup
    ∧ (ch, r) ∉ s.finished
    ∧ ∃ s' : DState,
        (∀ ok : Bool, dstep s (DEvent.finish ch ok) = some s')
        ∧ (ch, r) ∈ s'.finished
        ∧ (ch, r) ∉ s'.inflight
        ∧ r ∉ queueOf s' ch
        ∧ (queueOf s ch = [] → ch ∉ s'.processing_channels)
        ∧ (∀ r2 rest, queueOf s ch = r2 :: rest →
            inflightFor s' ch = [r2] ∧ queueOf s' ch = rest) := by
  have inv := dreachable_dinv hs
  have hfind : s.inflight.find? (fun pr => pr.1 == ch) = some (ch, r) :=
    find?_key_eq _ _ _ inv.inflightKeysNodup hin
  have hfreshF : r ∉ s.finished.map Prod.snd := finished_fresh inv hin
  have hnotinF : (ch, r) ∉ s.finished := fun hh =>
    hfreshF (List.mem_map.mpr ⟨_, hh, rfl⟩)
  have herased : projFor (s.inflight.eraseP (fun pr => pr.1 == ch)) ch = [] :=
    projFor_eraseP_self _ _ inv.inflightKeysNodup
  have hnotqueue : r ∉ queueOf s ch := inflight_not_in_queue inv hin
  refine ⟨inv.finishedSndNodup, hnotinF, ?_⟩
  cases hql : qLookup s.message_queues ch with
  | some q =>
    cases q with
    | cons r2 rest =>
      have hqeq : queueOf s ch = r2 :: rest := by
        simp [queueOf, hql]
      refine ⟨{ s with
          inflight := (ch, r2) :: s.inflight.eraseP (fun pr => pr.1 == ch),
          message_queues := qSet s.message_queues ch rest,
          finished := s.finished ++ [(ch, r)],
          started := s.started ++ [(ch, r2)] }, ?_, ?_, ?_, ?_, ?_, ?_⟩
      · intro ok
        show stepFinish s ch ok = _
        unfold stepFinish
        rw [hfind, hql]
      · simp
      · intro hh
        rcases List.mem_cons.mp hh with heq | hmem2
        · have hrr : r = r2 := congrArg Prod.snd heq
          rw [hqeq] at hnotqueue
          exact hnotqueue (hrr ▸ List.mem_cons_self r2 rest)
        · exact projFor_ne_nil_of_mem _ _ _ hmem2 herased
      · have hq' : queueOf { s with
            inflight := (ch, r2) :: s.inflight.eraseP (fun pr => pr.1 == ch),
            message_queues := qSet s.message_queues ch rest,
            finished := s.finished ++ [(ch, r)],
            started := s.started ++ [(ch, r2)] } ch = rest := by
          simp [queueOf, qLookup_qSet_self]
        rw [hq']
        rw [hqeq] at hnotqueue
        exact fun hr => hnotqueue (List.mem_cons_of_mem r2 hr)
      · intro hempty
        rw [hqeq] at hempty
        cases hempty
      · intro r2' rest' hq2
        rw [hqeq] at hq2
        cases hq2
        constructor
        · show projFor ((ch, r2) :: s.inflight.eraseP (fun pr => pr.1 == ch)) ch = [r2]
          rw [projFor_cons, if_pos rfl, herased]
          rfl
        · simp [queueOf, qLookup_qSet_self]
    | nil =>
      have hqeq : queueOf s ch = [] := by
        simp [queueOf, hql]
      refine ⟨{ s with
          inflight := s.inflight.eraseP (fun pr => pr.1 == ch),
          message_queues := qErase s.message_queues ch,
          processing_channels := s.processing_channels.erase ch,
          finished := s.finished ++ [(ch, r)] }, ?_, ?_, ?_, ?_, ?_, ?_⟩
      · intro ok
        show stepFinish s ch ok = _
        unfold stepFinish
        rw [hfind, hql]
      · simp
      · intro hh
        exact projFor_ne_nil_of_mem _ _ _ hh herased
      · show r ∉ (qLookup (qErase s.message_queues ch) ch).getD []
        rw [qLookup_qErase_self _ _ inv.queueKeysNodup]
        simp
      · intro _
        simp [inv.procNodup.mem_erase_iff]
      · intro r2' rest' hq2
        rw [hqeq] at hq2
        cases hq2
  | none =>
    have hqeq : queueOf s ch = [] := by
      simp [queueOf, hql]
    refine ⟨{ s with
        inflight := s.inflight.eraseP (fun pr => pr.1 == ch),
        processing_channels := s.processing_channels.erase ch,
        finished := s.finished ++ [(ch, r)] }, ?_, ?_, ?_, ?_, ?_, ?_⟩
    · intro ok
      show stepFinish s ch ok = _
      unfold stepFinish
      rw [hfind, hql]
    · simp
    · intro hh
      exact projFor_ne_nil_of_mem _ _ _ hh herased
    · show r ∉ (qLookup s.message_queues ch).getD []
      rw [hql]
      simp
    · intro _
      simp [inv.procNodup.mem_erase_iff]
    · intro r2' rest' hq2
      rw [hqeq] at hq2
      cases hq2

/-- C4 witness: at the concrete reachable state, finishing request 10 on
channel 1 (with either outcome) is enabled, records 10 finished exactly once,
and starts the queued request 11. -/
theorem completion_exactly_once_witness :
    ((exampleDState.finished.map Prod.snd).Nodup
      ∧ (1, 10) ∉ exampleDState.finished
      ∧ ∃ s' : DState,
          (∀ ok : Bool, dstep exampleDState (DEvent.finish 1 ok) = some s')
          ∧ (1, 10) ∈ s'.finished
          ∧ (1, 10) ∉ s'.inflight
          ∧ 10 ∉ queueOf s' 1
          ∧ (queueOf exampleDState 1 = [] → 1 ∉ s'.processing_channels)
          ∧ (∀ r2 rest, queueOf exampleDState 1 = r2 :: rest →
              inflightFor s' 1 = [r2] ∧ queueOf s' 1 = rest))
    ∧ (1, 10) ∈ exampleDState.inflight :=
  ⟨completion_exactly_once exampleDState_reachable 1 10 (by decide), by decide⟩

end Claudebot
